import Mathlib

/-!
Verification of the Search-to-Assembly pipeline (`piliang.py`).

The embedding models the filesystem state the pipeline manipulates:
a job folder is a listing of file names (with sizes where the code
inspects sizes), the retrieval adapter and the `os.path.exists` checks
are oracles passed as function parameters, and the external encoder
invocation is a parameter recording whether the process exited
successfully and whether (and how large) it left the output file.
File names are kept relative to their folder throughout (the code
always joins the same folder path onto both sides of every comparison,
so this is a faithful renaming).
-/

namespace Piliang

/-- Python's `str.endswith(suffix)` on the character sequence of a string. -/
def hasSuffix (s suf : String) : Bool := suf.data.isSuffixOf s.data

/-- A filesystem fragment: the files of one folder, in listing order,
each with its size in bytes (`os.path.getsize`). -/
abbrev FS := List (String × Nat)

/-- Names present in a folder, in listing order (`os.listdir`). -/
def fsNames (fs : FS) : List String := fs.map Prod.fst

/-- Python's `os.path.exists` inside the modelled folder. -/
def fsExists (fs : FS) (n : String) : Bool := decide (n ∈ fsNames fs)

/-- Size lookup: `none` when the file does not exist. -/
def fsLookup (fs : FS) (n : String) : Option Nat :=
  (fs.find? (fun p => p.1 == n)).map Prod.snd

/-- Writing (creating or overwriting) a file of a given size. -/
def fsWrite (fs : FS) (n : String) (s : Nat) : FS :=
  fs.filter (fun p => p.1 != n) ++ [(n, s)]

/-- Python's `os.remove`. -/
def fsRemove (fs : FS) (n : String) : FS := fs.filter (fun p => p.1 != n)

/-- Build a folder from a listing of names using a size oracle. -/
def fsOfNames (l : List String) (sz : String → Nat) : FS := l.map (fun n => (n, sz n))

/-- Result of the scanning loop at `piliang.py:66-72`: one pass over the
folder listing; the last `.srt` file wins, `.mp4` files are collected in
listing order, the last `.mp3`/`.wav` file wins. -/
structure ScanResult where
  srt : Option String
  videos : List String
  audio : Option String
deriving DecidableEq

/-- One iteration of the loop at `piliang.py:66-72`. -/
def scanStep (st : ScanResult) (f : String) : ScanResult :=
  if hasSuffix f ".srt" then { st with srt := some f }
  else if hasSuffix f ".mp4" then { st with videos := st.videos ++ [f] }
  else if hasSuffix f ".mp3" || hasSuffix f ".wav" then { st with audio := some f }
  else st

/-- The scanning loop of `merge_videos_with_srt` (`piliang.py:66-72`). -/
def scanFolder (listing : List String) : ScanResult :=
  listing.foldl scanStep ⟨none, [], none⟩

/-- Behaviour of one external-encoder invocation (`subprocess.run` of
ffmpeg at `piliang.py:111`): whether the process exited with status 0
(`check=True` raises otherwise), and whether it left an output file
behind and with what size. -/
structure EncoderBehavior where
  exitOk : Bool
  written : Option Nat
deriving DecidableEq

/-- Output file name chosen at `piliang.py:83`:
`{os.path.basename(folder_path)}_merged.mp4`. -/
def mergeOutName (folder : String) : String := folder ++ "_merged.mp4"

/-- Model of `merge_videos_with_srt` (`piliang.py:60-129`).  Scans the
folder; if the subtitle, the videos or the audio file is missing it
returns with no mutation (line 74-76).  Otherwise the encoder runs: the
file it may have written is recorded first; on a non-zero exit status
(`CalledProcessError`) the function returns `none` (line 125-129); on a
zero exit status the output file must exist with non-zero size
(line 113), in which case every scanned video file is removed
(lines 116-121) and the output path returned (line 122), else `none`.
The construction of the ffmpeg command itself is modelled separately by
`ffmpegCommand` below. -/
def merge_videos_with_srt (folder : String) (fs : FS) (enc : EncoderBehavior) :
    FS × Option String :=
  let sc := scanFolder (fsNames fs)
  match sc.srt, sc.videos, sc.audio with
  | some _, _ :: _, some _ =>
    let out := mergeOutName folder
    let fs1 := match enc.written with
      | some s => fsWrite fs out s
      | none => fs
    if enc.exitOk then
      match fsLookup fs1 out with
      | some s =>
        if 0 < s then (sc.videos.foldl fsRemove fs1, some out)
        else (fs1, none)
      | none => (fs1, none)
    else (fs1, none)
  | _, _, _ => (fs, none)

/-! ### The ffmpeg command construction (`piliang.py:84-106`) -/

/-- The timestamp-reset filter entry built for video input `i`
(`piliang.py:89`): `[i:v]setpts=PTS-STARTPTS[vi]`. -/
def setptsEntry (i : Nat) : String :=
  "[" ++ toString i ++ ":v]setpts=PTS-STARTPTS[v" ++ toString i ++ "]"

/-- Label of the reset video stream `i`. -/
def vlabel (i : Nat) : String := "[v" ++ toString i ++ "]"

/-- The video-concat filter entry (`piliang.py:92`): all reset streams in
input order, then `concat=n=N:v=1:a=0[outv]`. -/
def videoConcatEntry (n : Nat) : String :=
  String.join ((List.range n).map vlabel) ++ "concat=n=" ++ toString n ++ ":v=1:a=0[outv]"

/-- The audio-concat filter entry (`piliang.py:96`):
`[outv][N:a]concat=n=1:v=1:a=1[outv][outa]`. -/
def audioConcatEntry (n : Nat) : String :=
  "[outv][" ++ toString n ++ ":a]concat=n=1:v=1:a=1[outv][outa]"

/-- The `filter_complex` list built by `merge_videos_with_srt`
(`piliang.py:85-96`): one `setpts` entry per video, appended in the
enumeration loop, then the video concat, then the audio concat. -/
def mergeFilterComplex (videos : List String) : List String :=
  (videos.enum.foldl (fun acc p => acc ++ [setptsEntry p.1]) []) ++
    [videoConcatEntry videos.length, audioConcatEntry videos.length]

/-- Target output duration (`piliang.py:103`): the probed audio duration
plus 300 milliseconds.  The Python float arithmetic is modelled over ℚ. -/
def trimDuration (audioDuration : ℚ) : ℚ := audioDuration + 3/10

/-- The full encoder command line (`piliang.py:84-106`): `ffmpeg -y`, one
`-i` per video in order, `-i audio`, the `;`-joined filter graph, the
stream maps, the `-t` duration trim, and the output path.  (The code
interleaves the `-i` extensions with the filter entries in one loop; the
resulting list is the same.) -/
def ffmpegCommand (videos : List String) (audio folder : String) (audioDuration : ℚ) :
    List String :=
  ["ffmpeg", "-y"]
    ++ videos.foldl (fun acc v => acc ++ ["-i", v]) []
    ++ ["-i", audio]
    ++ ["-filter_complex", String.intercalate ";" (mergeFilterComplex videos)]
    ++ ["-map", "[outv]", "-map", "[outa]"]
    ++ ["-t", toString (trimDuration audioDuration)]
    ++ [mergeOutName folder]

/-! ### Candidate selection (`process_single_file`, `piliang.py:131-195`) -/

/-- One retrieval result (`search_video_by_text` entry). -/
structure Candidate where
  path : String
  start_time : String
  end_time : String
  score : Int
deriving DecidableEq

/-- Python's `term.replace(' ', '_')` (`piliang.py:156,167`). -/
def sanitize (t : String) : String :=
  String.mk (t.data.map (fun c => if c = ' ' then '_' else c))

/-- Staged segment file name (`piliang.py:167`): `{i}_{term}.mp4` with
spaces replaced; note it does not mention the candidate rank `j`. -/
def segName (i : Nat) (term : String) : String :=
  toString i ++ "_" ++ sanitize term ++ ".mp4"

/-- Staged metadata file name (`piliang.py:156`):
`{i}_{j}_{term}_metadata.json`. -/
def metaName (i j : Nat) (term : String) : String :=
  toString i ++ "_" ++ toString j ++ "_" ++ sanitize term ++ "_metadata.json"

/-- The state `process_single_file` mutates: the temporary metadata
folder, the video output folder (both name listings; writes of the same
name overwrite), and the `copied_videos` accumulator. -/
structure JobState where
  metaFiles : List String
  videoFiles : List String
  copied : List String
deriving DecidableEq

/-- Creating or overwriting a file: the name set gains `n` once. -/
def writeName (l : List String) (n : String) : List String :=
  if n ∈ l then l else l ++ [n]

/-- Deleting a file by name. -/
def removeName (l : List String) (n : String) : List String :=
  l.filter (fun m => m != n)

/-- Body of the inner candidate loop (`piliang.py:148-177`): save the
metadata record, copy the source video to `segName i term` when the
source path exists (appending the destination to `copied_videos`,
line 171), else skip, then delete the metadata record unconditionally
(line 176). -/
def processCandidate (ex : String → Bool) (i j : Nat) (term : String)
    (c : Candidate) (st : JobState) : JobState :=
  let mp := metaName i j term
  let st1 := { st with metaFiles := writeName st.metaFiles mp }
  let st2 :=
    if ex c.path then
      { st1 with videoFiles := writeName st1.videoFiles (segName i term),
                 copied := st1.copied ++ [segName i term] }
    else st1
  { st2 with metaFiles := removeName st2.metaFiles mp }

/-- The inner loop `for j, result in enumerate(results[:top_n], 1)`
(`piliang.py:148`), run over an already-truncated candidate list. -/
def processCandidates (ex : String → Bool) (i : Nat) (term : String) :
    Nat → List Candidate → JobState → JobState
  | _, [], st => st
  | j, c :: cs, st => processCandidates ex i term (j + 1) cs (processCandidate ex i j term c st)

/-- The outer loop `for i, term in enumerate(search_terms, 1)`
(`piliang.py:143-179`): query the retrieval adapter; an empty result
list only logs a warning and the loop continues with the next term. -/
def processTermsFrom (search : String → List Candidate) (ex : String → Bool) (tn : Nat) :
    Nat → List String → JobState → JobState
  | _, [], st => st
  | i, t :: ts, st =>
    let results := search t
    let st1 := if results.isEmpty then st
      else processCandidates ex i t 1 (results.take tn) st
    processTermsFrom search ex tn (i + 1) ts st1

/-- The whole selection pass of `process_single_file` starting from the
freshly created (empty) metadata and video folders. -/
def selectAll (search : String → List Candidate) (ex : String → Bool) (tn : Nat)
    (terms : List String) : JobState :=
  processTermsFrom search ex tn 1 terms ⟨[], [], []⟩

/-! ### Companion asset copier (`copy_audio_and_srt_files`, `piliang.py:32-54`) -/

/-- Audio extensions tried in order (`piliang.py:37`). -/
def audio_exts : List String := [".mp3", ".MP3", ".wav", ".WAV"]

/-- Model of `copy_audio_and_srt_files`: `ok` is the `os.path.exists`
oracle on the script file's directory.  The first existing audio
companion is copied (the `for ... break` at `piliang.py:37-43`), then
the `.srt` companion if it exists; the returned list is the names copied
into the job folder, in copy order. -/
def copy_audio_and_srt_files (ok : String → Bool) (base : String) : List String :=
  (match (audio_exts.map (fun e => base ++ e)).find? ok with
    | some a => [a]
    | none => []) ++
  (if ok (base ++ ".srt") then [base ++ ".srt"] else [])

/-! ### The per-file and batch drivers (`piliang.py:131-212`) -/

/-- External collaborators of one batch run. -/
structure Env where
  scriptOf : String → List String
  search : String → List Candidate
  sourceOk : String → Bool
  companionOk : String → Bool
  fileSize : String → Nat
  enc : String → EncoderBehavior

/-- Python's `os.path.splitext` base for the `.txt` script files the
drivers feed in. -/
def dropTxtExt (s : String) : String :=
  if hasSuffix s ".txt" then String.mk (s.data.take (s.data.length - 4)) else s

/-- Model of `process_single_file` (`piliang.py:131-195`): run the
selection pass, copy the companion assets into the job folder, merge the
job folder (the temporary metadata folder is removed at line 185 before
the merge), and return `copied_videos` together with the merge outcome.
The merge result is only logged by the code (lines 190-193); the
function's return value (line 195) is `copied_videos` alone. -/
def process_single_file (env : Env) (tn : Nat) (file : String) :
    List String × Option String :=
  let st := selectAll env.search env.sourceOk tn (env.scriptOf file)
  let base := dropTxtExt file
  let folderFS := fsOfNames (st.videoFiles ++ copy_audio_and_srt_files env.companionOk base)
      env.fileSize
  (st.copied, (merge_videos_with_srt base folderFS (env.enc file)).2)

/-- The shapes the top-level input path can take (`piliang.py:199-211`):
an existing file, an existing directory with its listing, or anything
else (including a non-existent path). -/
inductive InputPath where
  | file (name : String)
  | dir (listing : List String)
  | invalid
deriving DecidableEq

/-- Model of `process_input` (`piliang.py:197-212`): a single `.txt`
file is processed alone; a directory's `.txt` entries are each processed
in listing order, accumulating the copied-segment counts; an existing
file without the `.txt` suffix, or an invalid path, yields the error
branch and the count 0. -/
def process_input (env : Env) (tn : Nat) : InputPath → Nat
  | .file n => if hasSuffix n ".txt" then (process_single_file env tn n).1.length else 0
  | .dir l => l.foldl
      (fun acc f => if hasSuffix f ".txt" then acc + (process_single_file env tn f).1.length
        else acc) 0
  | .invalid => 0

/-! ### Helper lemmas about suffix matching -/

theorem hasSuffix_iff {s suf : String} : hasSuffix s suf = true ↔ suf.data <:+ s.data := by
  simp [hasSuffix]

theorem hasSuffix_append_self (x suf : String) : hasSuffix (x ++ suf) suf = true := by
  rw [hasSuffix_iff, String.data_append]
  exact List.suffix_append _ _

theorem hasSuffix_append_of_suffix {s₁ s₂ : String} (x : String) (h : s₂.data <:+ s₁.data) :
    hasSuffix (x ++ s₁) s₂ = true := by
  rw [hasSuffix_iff, String.data_append]
  exact h.trans (List.suffix_append _ _)

theorem hasSuffix_append_eq_false {s₁ s₂ : String} (x : String)
    (hle : s₂.data.length ≤ s₁.data.length) (h : ¬ s₂.data <:+ s₁.data) :
    hasSuffix (x ++ s₁) s₂ = false := by
  rw [Bool.eq_false_iff]
  intro hc
  rw [hasSuffix_iff, String.data_append] at hc
  rcases List.suffix_or_suffix_of_suffix hc (List.suffix_append x.data s₁.data) with h1 | h1
  · exact h h1
  · exact h (List.IsSuffix.eq_of_length h1 (le_antisymm h1.length_le hle) ▸ List.suffix_refl _)

theorem hasSuffix_unique {n s₁ s₂ : String} (h₁ : hasSuffix n s₁ = true)
    (h₂ : hasSuffix n s₂ = true) (hlen : s₁.data.length = s₂.data.length) :
    s₁.data = s₂.data := by
  rw [hasSuffix_iff] at h₁ h₂
  rcases List.suffix_or_suffix_of_suffix h₁ h₂ with h | h
  · exact List.IsSuffix.eq_of_length h hlen
  · exact (List.IsSuffix.eq_of_length h hlen.symm).symm

theorem ne_of_suffix_mp4 {n m : String} (hn4 : hasSuffix n ".mp4" = false)
    (hm : hasSuffix m ".mp4" = true) : n ≠ m := by
  intro h
  rw [h, hm] at hn4
  exact Bool.noConfusion hn4

/-! ### Helper lemmas about the folder model -/

theorem fsExists_iff {fs : FS} {n : String} : fsExists fs n = true ↔ n ∈ fsNames fs := by
  simp [fsExists]

theorem fsExists_eq_false_iff {fs : FS} {n : String} :
    fsExists fs n = false ↔ n ∉ fsNames fs := by
  simp [fsExists]

theorem mem_fsNames_fsWrite {fs : FS} {n m : String} {s : Nat} :
    m ∈ fsNames (fsWrite fs n s) ↔ (m ∈ fsNames fs ∧ m ≠ n) ∨ m = n := by
  simp only [fsNames, fsWrite, List.map_append, List.mem_append, List.mem_map,
    List.mem_filter, bne_iff_ne, ne_eq]
  constructor
  · rintro (⟨p, ⟨hp, hpn⟩, rfl⟩ | h)
    · exact Or.inl ⟨⟨p, hp, rfl⟩, hpn⟩
    · simp at h
      exact Or.inr h.symm
  · rintro (⟨⟨p, hp, rfl⟩, hpn⟩ | rfl)
    · exact Or.inl ⟨p, ⟨hp, hpn⟩, rfl⟩
    · exact Or.inr (by simp)

theorem mem_fsNames_fsRemove {fs : FS} {n m : String} :
    m ∈ fsNames (fsRemove fs n) ↔ m ∈ fsNames fs ∧ m ≠ n := by
  simp only [fsNames, fsRemove, List.mem_map, List.mem_filter, bne_iff_ne, ne_eq]
  constructor
  · rintro ⟨p, ⟨hp, hpn⟩, rfl⟩
    exact ⟨⟨p, hp, rfl⟩, hpn⟩
  · rintro ⟨⟨p, hp, rfl⟩, hpn⟩
    exact ⟨p, ⟨hp, hpn⟩, rfl⟩

theorem mem_fsNames_foldl_fsRemove {vs : List String} {fs : FS} {m : String}
    (h : m ∈ fsNames (vs.foldl fsRemove fs)) : m ∈ fsNames fs := by
  induction vs generalizing fs with
  | nil => exact h
  | cons v vs ih =>
    simp only [List.foldl_cons] at h
    exact (mem_fsNames_fsRemove.mp (ih h)).1

theorem not_mem_fsNames_foldl_fsRemove {vs : List String} {fs : FS} {v : String}
    (h : v ∈ vs) : v ∉ fsNames (vs.foldl fsRemove fs) := by
  induction vs generalizing fs with
  | nil => cases h
  | cons a vs ih =>
    simp only [List.foldl_cons]
    rcases List.mem_cons.mp h with rfl | hm
    · intro hc
      exact (mem_fsNames_fsRemove.mp (mem_fsNames_foldl_fsRemove hc)).2 rfl
    · exact ih hm

theorem find?_filter_ne (l : FS) (n m : String) (h : m ≠ n) :
    (l.filter (fun p => p.1 != n)).find? (fun p => p.1 == m)
      = l.find? (fun p => p.1 == m) := by
  induction l with
  | nil => rfl
  | cons p l ih =>
    rw [List.filter_cons]
    by_cases hpm : p.1 = m
    · have h1 : (p.1 != n) = true := by
        simp only [bne_iff_ne, ne_eq]; rw [hpm]; exact h
      rw [h1, if_pos rfl, List.find?_cons_of_pos _ (by simp [hpm]),
        List.find?_cons_of_pos _ (by simp [hpm])]
    · by_cases hpn : p.1 = n
      · have h1 : (p.1 != n) = false := by simp [hpn]
        rw [h1, if_neg (by simp), List.find?_cons_of_neg _ (by simp [hpm])]
        exact ih
      · have h1 : (p.1 != n) = true := by simp [hpn]
        rw [h1, if_pos rfl, List.find?_cons_of_neg _ (by simp [hpm]),
          List.find?_cons_of_neg _ (by simp [hpm])]
        exact ih

theorem fsLookup_fsWrite_ne {fs : FS} {n m : String} (s : Nat) (h : m ≠ n) :
    fsLookup (fsWrite fs n s) m = fsLookup fs m := by
  unfold fsLookup fsWrite
  rw [List.find?_append, find?_filter_ne fs n m h,
    List.find?_cons_of_neg _ (by simp; exact fun hc => h hc.symm)]
  cases (fs.find? (fun p => p.1 == m)) <;> rfl

theorem fsLookup_fsRemove_ne {fs : FS} {n m : String} (h : m ≠ n) :
    fsLookup (fsRemove fs n) m = fsLookup fs m := by
  unfold fsLookup fsRemove
  rw [find?_filter_ne fs n m h]

theorem fsLookup_foldl_fsRemove {vs : List String} {fs : FS} {m : String}
    (h : m ∉ vs) : fsLookup (vs.foldl fsRemove fs) m = fsLookup fs m := by
  induction vs generalizing fs with
  | nil => rfl
  | cons v vs ih =>
    simp only [List.foldl_cons]
    rw [ih (fun hc => h (List.mem_cons_of_mem _ hc)),
      fsLookup_fsRemove_ne (fun hc => h (by rw [hc]; exact List.mem_cons_self _ _))]

theorem fsNames_fsOfNames (l : List String) (sz : String → Nat) :
    fsNames (fsOfNames l sz) = l := by
  simp [fsNames, fsOfNames, List.map_map]
  exact List.map_id l

/-! ### Helper lemmas about the folder scan -/

/-- Everything the merge code can rely upon about one scan result: which
extensions each selected file carries, and that selected files come from
the listing. -/
def ScanInv (P : String → Prop) (sc : ScanResult) : Prop :=
  (∀ n, sc.srt = some n → P n ∧ hasSuffix n ".srt" = true) ∧
  (∀ v ∈ sc.videos, P v ∧ hasSuffix v ".mp4" = true ∧ hasSuffix v ".srt" = false) ∧
  (∀ n, sc.audio = some n → P n ∧ (hasSuffix n ".mp3" = true ∨ hasSuffix n ".wav" = true) ∧
    hasSuffix n ".srt" = false ∧ hasSuffix n ".mp4" = false)

theorem scanStep_inv {P : String → Prop} {st : ScanResult} {f : String}
    (hst : ScanInv P st) (hf : P f) : ScanInv P (scanStep st f) := by
  obtain ⟨h1, h2, h3⟩ := hst
  unfold scanStep
  by_cases hsrt : hasSuffix f ".srt" = true
  · rw [if_pos hsrt]
    exact ⟨fun n hn => by cases hn; exact ⟨hf, hsrt⟩, h2, h3⟩
  · rw [if_neg hsrt]
    by_cases hmp4 : hasSuffix f ".mp4" = true
    · rw [if_pos hmp4]
      refine ⟨h1, fun v hv => ?_, h3⟩
      rcases List.mem_append.mp hv with hv | hv
      · exact h2 v hv
      · rw [List.mem_singleton.mp hv]
        exact ⟨hf, hmp4, Bool.eq_false_iff.mpr hsrt⟩
    · rw [if_neg hmp4]
      by_cases haud : (hasSuffix f ".mp3" || hasSuffix f ".wav") = true
      · rw [if_pos haud]
        refine ⟨h1, h2, fun n hn => ?_⟩
        cases hn
        exact ⟨hf, Bool.or_eq_true_iff.mp haud, Bool.eq_false_iff.mpr hsrt,
          Bool.eq_false_iff.mpr hmp4⟩
      · rw [if_neg haud]
        exact ⟨h1, h2, h3⟩

theorem scanFolder_inv (l : List String) : ScanInv (· ∈ l) (scanFolder l) := by
  have aux : ∀ (P : String → Prop) (l' : List String) (st : ScanResult),
      (∀ x ∈ l', P x) → ScanInv P st → ScanInv P (l'.foldl scanStep st) := by
    intro P l'
    induction l' with
    | nil => exact fun st _ h => h
    | cons a l' ih =>
      intro st hall hst
      exact ih _ (fun x hx => hall x (List.mem_cons_of_mem _ hx))
        (scanStep_inv hst (hall a (List.mem_cons_self _ _)))
  refine aux _ l _ (fun x h => h) ⟨?_, ?_, ?_⟩
  · intro n hn; cases hn
  · intro v hv; cases hv
  · intro n hn; cases hn

theorem scanStep_video (st : ScanResult) (f : String)
    (h1 : hasSuffix f ".srt" = false) (h2 : hasSuffix f ".mp4" = true) :
    scanStep st f = { st with videos := st.videos ++ [f] } := by
  unfold scanStep
  rw [if_neg (by simp [h1]), if_pos h2]

theorem scanStep_srt (st : ScanResult) (f : String) (h : hasSuffix f ".srt" = true) :
    scanStep st f = { st with srt := some f } := by
  unfold scanStep
  rw [if_pos h]

theorem scanStep_skip (st : ScanResult) (f : String)
    (h1 : hasSuffix f ".srt" = false) (h2 : hasSuffix f ".mp4" = false)
    (h3 : hasSuffix f ".mp3" = false) (h4 : hasSuffix f ".wav" = false) :
    scanStep st f = st := by
  unfold scanStep
  rw [if_neg (by rw [h1]; exact Bool.false_ne_true),
    if_neg (by rw [h2]; exact Bool.false_ne_true),
    if_neg (by rw [h3, h4]; exact Bool.false_ne_true)]

theorem foldl_scanStep_all_mp4 : ∀ {l : List String} (st : ScanResult),
    (∀ n ∈ l, hasSuffix n ".srt" = false ∧ hasSuffix n ".mp4" = true) →
    l.foldl scanStep st = { st with videos := st.videos ++ l } := by
  intro l
  induction l with
  | nil => intro st _; simp
  | cons a l ih =>
    intro st hall
    obtain ⟨ha1, ha2⟩ := hall a (List.mem_cons_self _ _)
    simp only [List.foldl_cons]
    rw [scanStep_video st a ha1 ha2, ih _ (fun n hn => hall n (List.mem_cons_of_mem _ hn))]
    simp

/-- A listing whose every member is a plain `.mp4` name is scanned into
exactly that video list, in listing order, with no subtitle or audio. -/
theorem scanFolder_all_mp4 {l : List String}
    (h : ∀ n ∈ l, hasSuffix n ".srt" = false ∧ hasSuffix n ".mp4" = true) :
    scanFolder l = ⟨none, l, none⟩ := by
  rw [show scanFolder l = l.foldl scanStep ⟨none, [], none⟩ from rfl,
    foldl_scanStep_all_mp4 _ h]
  simp

/-! ### Helper lemmas about name-set updates -/

theorem mem_writeName {l : List String} {n m : String} :
    m ∈ writeName l n ↔ m ∈ l ∨ m = n := by
  unfold writeName
  by_cases h : n ∈ l
  · rw [if_pos h]
    constructor
    · exact Or.inl
    · rintro (hm | rfl)
      · exact hm
      · exact h
  · rw [if_neg h]
    simp

theorem writeName_of_mem {l : List String} {n : String} (h : n ∈ l) :
    writeName l n = l := if_pos h

theorem writeName_of_not_mem {l : List String} {n : String} (h : n ∉ l) :
    writeName l n = l ++ [n] := if_neg h

theorem writeName_writeName (l : List String) (n : String) :
    writeName (writeName l n) n = writeName l n :=
  writeName_of_mem (mem_writeName.mpr (Or.inr rfl))

theorem writeName_nodup {l : List String} {n : String} (h : l.Nodup) :
    (writeName l n).Nodup := by
  unfold writeName
  by_cases hm : n ∈ l
  · rw [if_pos hm]; exact h
  · rw [if_neg hm]
    exact List.Nodup.append h (List.nodup_singleton n) (by simpa using hm)

theorem not_mem_removeName (l : List String) (n : String) : n ∉ removeName l n := by
  unfold removeName
  intro hc
  have := (List.mem_filter.mp hc).2
  simp at this

theorem removeName_of_not_mem {l : List String} {n : String} (h : n ∉ l) :
    removeName l n = l := by
  unfold removeName
  rw [List.filter_eq_self]
  intro a ha
  simp only [bne_iff_ne, ne_eq]
  intro hc
  exact h (hc ▸ ha)

theorem removeName_writeName (l : List String) (n : String) :
    removeName (writeName l n) n = removeName l n := by
  unfold writeName
  by_cases h : n ∈ l
  · rw [if_pos h]
  · rw [if_neg h]
    unfold removeName
    rw [List.filter_append]
    simp

/-! ### Lexicographic facts about staged segment names -/

/-- The staged names the selection writes for the lines of a script, in
line order, where the first line carries ordinal `i`. -/
def stagedNamesFrom : Nat → List String → List String
  | _, [] => []
  | i, t :: ts => segName i t :: stagedNamesFrom (i + 1) ts

theorem stagedNamesFrom_length : ∀ (ts : List String) (i : Nat),
    (stagedNamesFrom i ts).length = ts.length
  | [], _ => rfl
  | _ :: ts, i => by simp [stagedNamesFrom, stagedNamesFrom_length ts (i + 1)]

theorem mem_stagedNamesFrom : ∀ {ts : List String} {i : Nat} {s : String},
    s ∈ stagedNamesFrom i ts → ∃ j u, i ≤ j ∧ j < i + ts.length ∧ s = segName j u := by
  intro ts
  induction ts with
  | nil => intro i s h; cases h
  | cons t ts ih =>
    intro i s h
    rcases List.mem_cons.mp h with rfl | h
    · exact ⟨i, t, le_refl i, by simp, rfl⟩
    · obtain ⟨j, u, hj1, hj2, hj3⟩ := ih h
      exact ⟨j, u, by omega, by simp at hj2 ⊢; omega, hj3⟩

theorem toString_digit (i : Nat) (h1 : 1 ≤ i) (h9 : i ≤ 9) :
    (toString i).data = [Char.ofNat (48 + i)] := by
  interval_cases i <;> decide

theorem segName_data (i : Nat) (t : String) :
    (segName i t).data = (toString i).data ++ '_' :: ((sanitize t).data ++ ".mp4".data) := by
  simp [segName]

theorem digitChar_lt {i j : Nat} (h1 : 1 ≤ i) (hij : i < j) (h9 : j ≤ 9) :
    Char.ofNat (48 + i) < Char.ofNat (48 + j) := by
  have h8 : i ≤ 8 := by omega
  interval_cases i <;> interval_cases j <;> decide

/-- Single-digit ordinals order the staged names lexicographically the
same way the script lines are ordered, whatever the terms are. -/
theorem segName_lt {i j : Nat} (t u : String) (h1 : 1 ≤ i) (hij : i < j) (h9 : j ≤ 9) :
    segName i t < segName j u := by
  rw [String.lt_iff_toList_lt]
  show (segName i t).data < (segName j u).data
  rw [segName_data, segName_data, toString_digit i h1 (by omega),
    toString_digit j (by omega) h9]
  exact List.Lex.rel (digitChar_lt h1 hij h9)

theorem segName_ne {i j : Nat} (t u : String) (h1 : 1 ≤ i) (hij : i < j) (h9 : j ≤ 9) :
    segName i t ≠ segName j u :=
  ne_of_lt (segName_lt t u h1 hij h9)

theorem stagedNamesFrom_sorted : ∀ (ts : List String) (i : Nat), 1 ≤ i →
    i + ts.length ≤ 10 → List.Sorted (· < ·) (stagedNamesFrom i ts) := by
  intro ts
  induction ts with
  | nil => intro i _ _; exact List.sorted_nil
  | cons t ts ih =>
    intro i h1 hb
    rw [show stagedNamesFrom i (t :: ts) = segName i t :: stagedNamesFrom (i + 1) ts from rfl,
      List.sorted_cons]
    refine ⟨fun s hs => ?_, ih (i + 1) (by omega) (by simp at hb ⊢; omega)⟩
    obtain ⟨j, u, hj1, hj2, rfl⟩ := mem_stagedNamesFrom hs
    simp at hb
    exact segName_lt t u h1 (by omega) (by omega)

/-! ### Injectivity of the decimal ordinal prefix

Staged names of distinct ordinals never collide, for any number of
terms: where one decimal representation ends the name continues with
`'_'`, which is not a digit, so the representations — and hence the
ordinals — coincide whenever the names do. -/

theorem digitChar_inj_lt {d₁ d₂ : Nat} (h₁ : d₁ < 10) (h₂ : d₂ < 10)
    (h : Nat.digitChar d₁ = Nat.digitChar d₂) : d₁ = d₂ := by
  interval_cases d₁ <;> interval_cases d₂ <;> revert h <;> decide

theorem digitChar_ne_underscore {d : Nat} (h : d < 10) : Nat.digitChar d ≠ '_' := by
  interval_cases d <;> decide

theorem toDigitsCore_eq_digits : ∀ (fuel n : Nat) (ds : List Char), 0 < n → n < 10 ^ fuel →
    Nat.toDigitsCore 10 fuel n ds
      = ((Nat.digits 10 n).reverse.map Nat.digitChar) ++ ds
  | 0, n, ds, hn, hlt => by simp at hlt; omega
  | fuel + 1, n, ds, hn, hlt => by
    rw [show Nat.toDigitsCore 10 (fuel + 1) n ds
        = (if n / 10 = 0 then Nat.digitChar (n % 10) :: ds
           else Nat.toDigitsCore 10 fuel (n / 10) (Nat.digitChar (n % 10) :: ds)) from rfl,
      Nat.digits_def' (by norm_num : (1:Nat) < 10) hn]
    by_cases h10 : n / 10 = 0
    · rw [if_pos h10, h10]
      simp
    · rw [if_neg h10,
        toDigitsCore_eq_digits fuel (n / 10) _ (Nat.pos_of_ne_zero h10)
          ((Nat.div_lt_iff_lt_mul (by norm_num)).mpr (by rw [← pow_succ]; exact hlt))]
      simp

theorem toDigits_eq_digits (n : Nat) (hn : 0 < n) :
    Nat.toDigits 10 n = (Nat.digits 10 n).reverse.map Nat.digitChar := by
  have hpow : n < 10 ^ (n + 1) := by
    calc n < 2 ^ n := Nat.lt_two_pow n
    _ ≤ 2 ^ (n + 1) := Nat.pow_le_pow_right (by norm_num) (by omega)
    _ ≤ 10 ^ (n + 1) := Nat.pow_le_pow_left (by norm_num) _
  rw [show Nat.toDigits 10 n = Nat.toDigitsCore 10 (n + 1) n [] from rfl,
    toDigitsCore_eq_digits (n + 1) n [] hn hpow, List.append_nil]

theorem map_digitChar_inj : ∀ (l₁ l₂ : List Nat), (∀ d ∈ l₁, d < 10) → (∀ d ∈ l₂, d < 10) →
    l₁.map Nat.digitChar = l₂.map Nat.digitChar → l₁ = l₂
  | [], [], _, _, _ => rfl
  | [], _ :: _, _, _, h => by cases h
  | _ :: _, [], _, _, h => by cases h
  | d₁ :: l₁, d₂ :: l₂, h₁, h₂, h => by
    rw [List.map_cons, List.map_cons] at h
    obtain ⟨hd, hl⟩ := List.cons.inj h
    rw [digitChar_inj_lt (h₁ d₁ (List.mem_cons_self _ _)) (h₂ d₂ (List.mem_cons_self _ _)) hd,
      map_digitChar_inj l₁ l₂ (fun d hd => h₁ d (List.mem_cons_of_mem _ hd))
        (fun d hd => h₂ d (List.mem_cons_of_mem _ hd)) hl]

theorem toDigits_ne_zero_digits {j : Nat} (hj : j ≠ 0) : Nat.toDigits 10 j ≠ ['0'] := by
  intro h
  rw [toDigits_eq_digits j (Nat.pos_of_ne_zero hj)] at h
  rcases hrev : (Nat.digits 10 j).reverse with _ | ⟨c, rest⟩
  · rw [hrev] at h
    cases h
  · rw [hrev, List.map_cons] at h
    obtain ⟨hc, hrest⟩ := List.cons.inj h
    have hrest0 : rest = [] := by
      cases rest with
      | nil => rfl
      | cons x xs => cases hrest
    have hdig : Nat.digits 10 j = [c] := by
      have := congrArg List.reverse hrev
      rw [List.reverse_reverse] at this
      rw [this, hrest0]
      rfl
    have hc10 : c < 10 := Nat.digits_lt_base (by norm_num)
      (by rw [hdig]; exact List.mem_singleton_self c)
    have hc0 : c = 0 := digitChar_inj_lt hc10 (by norm_num) hc
    have h0 : Nat.digits 10 j = [0] := by rw [hdig, hc0]
    have hlast := Nat.getLast_digit_ne_zero 10 hj
    apply hlast
    simp [h0]

theorem toDigits_inj {i j : Nat} (h : Nat.toDigits 10 i = Nat.toDigits 10 j) : i = j := by
  by_cases hi : i = 0 <;> by_cases hj : j = 0
  · rw [hi, hj]
  · subst hi
    exact absurd h.symm (toDigits_ne_zero_digits hj)
  · subst hj
    exact absurd h (toDigits_ne_zero_digits hi)
  · rw [toDigits_eq_digits i (Nat.pos_of_ne_zero hi),
      toDigits_eq_digits j (Nat.pos_of_ne_zero hj)] at h
    have hrev := map_digitChar_inj _ _
      (fun d hd => Nat.digits_lt_base (by norm_num) (List.mem_reverse.mp hd))
      (fun d hd => Nat.digits_lt_base (by norm_num) (List.mem_reverse.mp hd)) h
    have hdig : Nat.digits 10 i = Nat.digits 10 j := by
      have := congrArg List.reverse hrev
      rwa [List.reverse_reverse, List.reverse_reverse] at this
    calc i = Nat.ofDigits 10 (Nat.digits 10 i) := (Nat.ofDigits_digits 10 i).symm
    _ = Nat.ofDigits 10 (Nat.digits 10 j) := by rw [hdig]
    _ = j := Nat.ofDigits_digits 10 j

theorem toString_no_underscore (n : Nat) : '_' ∉ (toString n).data := by
  rw [show (toString n).data = Nat.toDigits 10 n from rfl]
  by_cases hn : n = 0
  · subst hn
    decide
  · rw [toDigits_eq_digits n (Nat.pos_of_ne_zero hn)]
    intro hc
    obtain ⟨d, hd, hdc⟩ := List.mem_map.mp hc
    exact digitChar_ne_underscore
      (Nat.digits_lt_base (by norm_num) (List.mem_reverse.mp hd)) hdc

theorem append_sep_eq : ∀ {a b : List Char} {r₁ r₂ : List Char}, '_' ∉ a → '_' ∉ b →
    a ++ '_' :: r₁ = b ++ '_' :: r₂ → a = b ∧ r₁ = r₂
  | [], [], r₁, r₂, _, _, h => ⟨rfl, by simpa using h⟩
  | [], c :: b, r₁, r₂, _, hb, h => by
    rw [List.nil_append, List.cons_append] at h
    obtain ⟨hc, _⟩ := List.cons.inj h
    exact absurd (hc ▸ List.mem_cons_self c b) hb
  | c :: a, [], r₁, r₂, ha, _, h => by
    rw [List.nil_append, List.cons_append] at h
    obtain ⟨hc, _⟩ := List.cons.inj h
    exact absurd (hc ▸ List.mem_cons_self c a) ha
  | c :: a, d :: b, r₁, r₂, ha, hb, h => by
    rw [List.cons_append, List.cons_append] at h
    obtain ⟨hc, hrest⟩ := List.cons.inj h
    obtain ⟨h1, h2⟩ := append_sep_eq (fun hx => ha (List.mem_cons_of_mem _ hx))
      (fun hx => hb (List.mem_cons_of_mem _ hx)) hrest
    exact ⟨by rw [hc, h1], h2⟩

theorem toString_nat_data_inj {i j : Nat} (h : (toString i).data = (toString j).data) :
    i = j :=
  toDigits_inj (by
    rw [show (toString i).data = Nat.toDigits 10 i from rfl,
      show (toString j).data = Nat.toDigits 10 j from rfl] at h
    exact h)

/-- Staged segment names of distinct term ordinals are distinct for any
ordinals, whatever the terms: the decimal prefix is delimited by the
first `'_'`, which never occurs inside a decimal representation. -/
theorem segName_inj {i j : Nat} (t u : String) (hij : i ≠ j) : segName i t ≠ segName j u := by
  intro h
  have hd := congrArg String.data h
  rw [segName_data, segName_data] at hd
  exact hij (toString_nat_data_inj
    (append_sep_eq (toString_no_underscore i) (toString_no_underscore j) hd).1)

theorem segName_suffix_mp4 (i : Nat) (t : String) : hasSuffix (segName i t) ".mp4" = true :=
  hasSuffix_append_self (toString i ++ "_" ++ sanitize t) ".mp4"

theorem segName_not_suffix_srt (i : Nat) (t : String) :
    hasSuffix (segName i t) ".srt" = false :=
  hasSuffix_append_eq_false (toString i ++ "_" ++ sanitize t) (by decide) (by decide)

/-! ### Characterizations of the selection loops -/

theorem processCandidate_metaFiles (ex : String → Bool) (i j : Nat) (term : String)
    (c : Candidate) (st : JobState) :
    (processCandidate ex i j term c st).metaFiles
      = removeName st.metaFiles (metaName i j term) := by
  by_cases h : ex c.path = true
  · simp only [processCandidate, if_pos h]
    exact removeName_writeName _ _
  · simp only [processCandidate, if_neg h]
    exact removeName_writeName _ _

theorem processCandidate_videoFiles_of_ex {ex : String → Bool} {c : Candidate}
    (i j : Nat) (term : String) (st : JobState) (h : ex c.path = true) :
    (processCandidate ex i j term c st).videoFiles
      = writeName st.videoFiles (segName i term) := by
  simp only [processCandidate, if_pos h]

theorem processCandidate_videoFiles_of_not_ex {ex : String → Bool} {c : Candidate}
    (i j : Nat) (term : String) (st : JobState) (h : ex c.path = false) :
    (processCandidate ex i j term c st).videoFiles = st.videoFiles := by
  simp only [processCandidate, if_neg (by rw [h]; exact Bool.false_ne_true : ¬ ex c.path = true)]

theorem processCandidate_copied (ex : String → Bool) (i j : Nat) (term : String)
    (c : Candidate) (st : JobState) :
    (processCandidate ex i j term c st).copied
      = st.copied ++ (if ex c.path then [segName i term] else []) := by
  by_cases h : ex c.path = true
  · simp only [processCandidate, if_pos h]
  · simp only [processCandidate, if_neg h, List.append_nil]

theorem processCandidate_of_skip {ex : String → Bool} {c : Candidate} {st : JobState}
    (i j : Nat) (term : String) (hex : ex c.path = false)
    (hm : metaName i j term ∉ st.metaFiles) :
    processCandidate ex i j term c st = st := by
  have : removeName (writeName st.metaFiles (metaName i j term)) (metaName i j term)
      = st.metaFiles := by
    rw [removeName_writeName, removeName_of_not_mem hm]
  simp only [processCandidate,
    if_neg (by rw [hex]; exact Bool.false_ne_true : ¬ ex c.path = true), this]

theorem processCandidates_metaFiles_nil (ex : String → Bool) (i : Nat) (term : String) :
    ∀ (cs : List Candidate) (j : Nat) (st : JobState), st.metaFiles = [] →
      (processCandidates ex i term j cs st).metaFiles = []
  | [], _, _, h => h
  | c :: cs, j, st, h => by
    rw [show processCandidates ex i term j (c :: cs) st
      = processCandidates ex i term (j + 1) cs (processCandidate ex i j term c st) from rfl]
    exact processCandidates_metaFiles_nil ex i term cs (j + 1) _
      (by rw [processCandidate_metaFiles, h]; rfl)

theorem processCandidates_copied (ex : String → Bool) (i : Nat) (term : String) :
    ∀ (cs : List Candidate) (j : Nat) (st : JobState),
      (processCandidates ex i term j cs st).copied
        = st.copied ++ (cs.filter (fun c => ex c.path)).map (fun _ => segName i term)
  | [], _, _ => by simp [processCandidates]
  | c :: cs, j, st => by
    rw [show processCandidates ex i term j (c :: cs) st
        = processCandidates ex i term (j + 1) cs (processCandidate ex i j term c st) from rfl,
      processCandidates_copied ex i term cs (j + 1) _, processCandidate_copied,
      List.filter_cons]
    by_cases h : ex c.path = true
    · rw [if_pos h, if_pos h]
      simp
    · rw [if_neg h, if_neg h]
      simp

theorem processCandidates_videoFiles (ex : String → Bool) (i : Nat) (term : String) :
    ∀ (cs : List Candidate) (j : Nat) (st : JobState),
      (∀ c ∈ cs, ex c.path = true) →
      (processCandidates ex i term j cs st).videoFiles
        = if cs.isEmpty then st.videoFiles else writeName st.videoFiles (segName i term)
  | [], _, _, _ => rfl
  | c :: cs, j, st, hall => by
    rw [show processCandidates ex i term j (c :: cs) st
        = processCandidates ex i term (j + 1) cs (processCandidate ex i j term c st) from rfl,
      processCandidates_videoFiles ex i term cs (j + 1) _
        (fun d hd => hall d (List.mem_cons_of_mem _ hd)),
      processCandidate_videoFiles_of_ex i j term st (hall c (List.mem_cons_self _ _))]
    by_cases h : cs.isEmpty
    · rw [if_pos h]; simp
    · rw [if_neg h, writeName_writeName]; simp

theorem processCandidate_videoFiles_nodup {ex : String → Bool} {c : Candidate}
    {st : JobState} (i j : Nat) (term : String) (h : st.videoFiles.Nodup) :
    (processCandidate ex i j term c st).videoFiles.Nodup := by
  by_cases hex : ex c.path = true
  · rw [processCandidate_videoFiles_of_ex i j term st hex]
    exact writeName_nodup h
  · rw [processCandidate_videoFiles_of_not_ex i j term st (Bool.eq_false_iff.mpr hex)]
    exact h

theorem processCandidates_videoFiles_nodup (ex : String → Bool) (i : Nat) (term : String) :
    ∀ (cs : List Candidate) (j : Nat) (st : JobState), st.videoFiles.Nodup →
      (processCandidates ex i term j cs st).videoFiles.Nodup
  | [], _, _, h => h
  | c :: cs, j, st, h =>
    processCandidates_videoFiles_nodup ex i term cs (j + 1) _
      (processCandidate_videoFiles_nodup i j term h)

theorem processTermsFrom_metaFiles_nil (search : String → List Candidate)
    (ex : String → Bool) (tn : Nat) :
    ∀ (ts : List String) (i : Nat) (st : JobState), st.metaFiles = [] →
      (processTermsFrom search ex tn i ts st).metaFiles = []
  | [], _, _, h => h
  | t :: ts, i, st, h => by
    by_cases hr : (search t).isEmpty
    · simp only [processTermsFrom, if_pos hr]
      exact processTermsFrom_metaFiles_nil search ex tn ts (i + 1) st h
    · simp only [processTermsFrom, if_neg hr]
      exact processTermsFrom_metaFiles_nil search ex tn ts (i + 1) _
        (processCandidates_metaFiles_nil ex i t _ 1 st h)

theorem processTermsFrom_videoFiles_nodup (search : String → List Candidate)
    (ex : String → Bool) (tn : Nat) :
    ∀ (ts : List String) (i : Nat) (st : JobState), st.videoFiles.Nodup →
      (processTermsFrom search ex tn i ts st).videoFiles.Nodup
  | [], _, _, h => h
  | t :: ts, i, st, h => by
    by_cases hr : (search t).isEmpty
    · simp only [processTermsFrom, if_pos hr]
      exact processTermsFrom_videoFiles_nodup search ex tn ts (i + 1) st h
    · simp only [processTermsFrom, if_neg hr]
      exact processTermsFrom_videoFiles_nodup search ex tn ts (i + 1) _
        (processCandidates_videoFiles_nodup ex i t _ 1 st h)

/-- Copies performed per term, in spec form: zero for a term with no
retrieval results, else the number of existing sources among the first
`tn` candidates. -/
def copiedCountSpec (search : String → List Candidate) (ex : String → Bool) (tn : Nat) :
    List String → Nat
  | [] => 0
  | t :: ts =>
    (if (search t).isEmpty then 0
      else (((search t).take tn).filter (fun c => ex c.path)).length)
      + copiedCountSpec search ex tn ts

theorem processTermsFrom_copied_length (search : String → List Candidate)
    (ex : String → Bool) (tn : Nat) :
    ∀ (ts : List String) (i : Nat) (st : JobState),
      (processTermsFrom search ex tn i ts st).copied.length
        = st.copied.length + copiedCountSpec search ex tn ts
  | [], _, _ => by simp [processTermsFrom, copiedCountSpec]
  | t :: ts, i, st => by
    by_cases hr : (search t).isEmpty
    · simp only [processTermsFrom, copiedCountSpec, if_pos hr,
        processTermsFrom_copied_length search ex tn ts (i + 1) st]
      omega
    · simp only [processTermsFrom, copiedCountSpec, if_neg hr,
        processTermsFrom_copied_length search ex tn ts (i + 1) _,
        processCandidates_copied]
      simp [Nat.add_assoc]

theorem processTermsFrom_videoFiles (search : String → List Candidate)
    (ex : String → Bool) (tn : Nat) (htn : 1 ≤ tn) :
    ∀ (ts : List String) (i : Nat) (st : JobState),
      (∀ t ∈ ts, tn ≤ (search t).length) →
      (∀ t ∈ ts, ∀ c ∈ search t, ex c.path = true) →
      (∀ n ∈ st.videoFiles, ∃ j u, j < i ∧ n = segName j u) →
      (processTermsFrom search ex tn i ts st).videoFiles
        = st.videoFiles ++ stagedNamesFrom i ts
  | [], _, _, _, _, _ => by simp [processTermsFrom, stagedNamesFrom]
  | t :: ts, i, st, hres, hex, hst => by
    have hlen : tn ≤ (search t).length := hres t (List.mem_cons_self _ _)
    have hne : (search t).isEmpty = false := by
      rw [List.isEmpty_eq_false_iff_exists_mem]
      have : 0 < (search t).length := by omega
      exact List.exists_mem_of_length_pos this
    have htake : ((search t).take tn).isEmpty = false := by
      rw [List.isEmpty_eq_false_iff_exists_mem]
      refine List.exists_mem_of_length_pos ?_
      rw [List.length_take]
      omega
    have hnotin : segName i t ∉ st.videoFiles := by
      intro hc
      obtain ⟨j, u, hj2, hj3⟩ := hst _ hc
      exact segName_inj t u (by omega) hj3
    simp only [processTermsFrom,
      if_neg (by rw [hne]; exact Bool.false_ne_true : ¬ (search t).isEmpty = true)]
    rw [processTermsFrom_videoFiles search ex tn htn ts (i + 1) _
        (fun u hu => hres u (List.mem_cons_of_mem _ hu))
        (fun u hu c hc => hex u (List.mem_cons_of_mem _ hu) c hc)
        ?_]
    · rw [processCandidates_videoFiles ex i t _ 1 st
        (fun c hc => hex t (List.mem_cons_self _ _) c (List.mem_of_mem_take hc)),
        if_neg (by rw [htake]; exact Bool.false_ne_true),
        writeName_of_not_mem hnotin]
      simp [stagedNamesFrom]
    · intro n hn
      rw [processCandidates_videoFiles ex i t _ 1 st
        (fun c hc => hex t (List.mem_cons_self _ _) c (List.mem_of_mem_take hc)),
        if_neg (by rw [htake]; exact Bool.false_ne_true),
        writeName_of_not_mem hnotin] at hn
      rcases List.mem_append.mp hn with hn | hn
      · obtain ⟨j, u, hj2, hj3⟩ := hst _ hn
        exact ⟨j, u, by omega, hj3⟩
      · rw [List.mem_singleton.mp hn]
        exact ⟨i, t, by omega, rfl⟩

/-! ### Characterization of the merge operation -/

theorem mem_fsNames_fsWrite_of_mem {fs : FS} {m n : String} {s : Nat}
    (h : m ∈ fsNames fs) : m ∈ fsNames (fsWrite fs n s) := by
  by_cases hmn : m = n
  · exact mem_fsNames_fsWrite.mpr (Or.inr hmn)
  · exact mem_fsNames_fsWrite.mpr (Or.inl ⟨h, hmn⟩)

theorem merge_of_scan_missing (folder : String) (fs : FS) (enc : EncoderBehavior)
    (h : (scanFolder (fsNames fs)).srt = none ∨ (scanFolder (fsNames fs)).videos = []
      ∨ (scanFolder (fsNames fs)).audio = none) :
    merge_videos_with_srt folder fs enc = (fs, none) := by
  rcases hs : (scanFolder (fsNames fs)).srt with _ | s
  · rcases hv : (scanFolder (fsNames fs)).videos with _ | ⟨v, vs⟩ <;>
      rcases ha : (scanFolder (fsNames fs)).audio with _ | a <;>
      simp [merge_videos_with_srt, hs, hv, ha]
  · rcases hv : (scanFolder (fsNames fs)).videos with _ | ⟨v, vs⟩
    · rcases ha : (scanFolder (fsNames fs)).audio with _ | a <;>
        simp [merge_videos_with_srt, hs, hv, ha]
    · rcases ha : (scanFolder (fsNames fs)).audio with _ | a
      · simp [merge_videos_with_srt, hs, hv, ha]
      · rcases h with h | h | h
        · rw [hs] at h; cases h
        · rw [hv] at h; cases h
        · rw [ha] at h; cases h

/-- Exhaustive case analysis of one merge call: either a precondition is
missing and nothing happens, or the encoder ran, leaving `fs1` (the
folder plus whatever the encoder wrote), and the call either failed with
state `fs1` or succeeded, removed the scanned videos and returned the
output name. -/
theorem merge_cases (folder : String) (fs : FS) (enc : EncoderBehavior) :
    (merge_videos_with_srt folder fs enc = (fs, none) ∧
      ((scanFolder (fsNames fs)).srt = none ∨ (scanFolder (fsNames fs)).videos = []
        ∨ (scanFolder (fsNames fs)).audio = none)) ∨
    (∃ fs1, (fs1 = fs ∨ ∃ s, enc.written = some s ∧ fs1 = fsWrite fs (mergeOutName folder) s) ∧
      (merge_videos_with_srt folder fs enc = (fs1, none) ∨
        (∃ sz, fsLookup fs1 (mergeOutName folder) = some sz ∧ 0 < sz ∧
          merge_videos_with_srt folder fs enc
            = ((scanFolder (fsNames fs)).videos.foldl fsRemove fs1,
               some (mergeOutName folder))))) := by
  rcases hs : (scanFolder (fsNames fs)).srt with _ | s
  · exact Or.inl ⟨merge_of_scan_missing folder fs enc (Or.inl hs), Or.inl rfl⟩
  · rcases hv : (scanFolder (fsNames fs)).videos with _ | ⟨v, vs⟩
    · exact Or.inl ⟨merge_of_scan_missing folder fs enc (Or.inr (Or.inl hv)),
        Or.inr (Or.inl rfl)⟩
    · rcases ha : (scanFolder (fsNames fs)).audio with _ | a
      · exact Or.inl ⟨merge_of_scan_missing folder fs enc (Or.inr (Or.inr ha)),
          Or.inr (Or.inr rfl)⟩
      · right
        have core : ∀ fs1 : FS,
            merge_videos_with_srt folder fs enc
                = (if enc.exitOk then
                    match fsLookup fs1 (mergeOutName folder) with
                    | some s => if 0 < s then ((v :: vs).foldl fsRemove fs1,
                        some (mergeOutName folder))
                      else (fs1, none)
                    | none => (fs1, none)
                  else (fs1, none)) →
            (merge_videos_with_srt folder fs enc = (fs1, none) ∨
              (∃ sz, fsLookup fs1 (mergeOutName folder) = some sz ∧ 0 < sz ∧
                merge_videos_with_srt folder fs enc
                  = ((v :: vs).foldl fsRemove fs1, some (mergeOutName folder)))) := by
          intro fs1 heq
          rcases he : enc.exitOk with _ | _
          · rw [he, if_neg Bool.false_ne_true] at heq
            exact Or.inl heq
          · rw [he, if_pos rfl] at heq
            rcases hl : fsLookup fs1 (mergeOutName folder) with _ | sz
            · rw [hl] at heq
              exact Or.inl heq
            · rw [hl] at heq
              dsimp only at heq
              by_cases hsz : 0 < sz
              · rw [if_pos hsz] at heq
                exact Or.inr ⟨sz, rfl, hsz, heq⟩
              · rw [if_neg hsz] at heq
                exact Or.inl heq
        rcases hw : enc.written with _ | s
        · exact ⟨fs, Or.inl rfl,
            core fs (by simp only [merge_videos_with_srt, hs, hv, ha, hw])⟩
        · exact ⟨fsWrite fs (mergeOutName folder) s, Or.inr ⟨s, rfl, rfl⟩,
            core _ (by simp only [merge_videos_with_srt, hs, hv, ha, hw])⟩

theorem mergeOutName_suffix_mp4 (folder : String) :
    hasSuffix (mergeOutName folder) ".mp4" = true :=
  hasSuffix_append_of_suffix folder (by decide)

/-- A file carrying a sidecar extension (subtitle or audio) never equals
a file carrying the video extension. -/
theorem sidecar_ne {n m : String}
    (hside : hasSuffix n ".srt" = true ∨ hasSuffix n ".mp3" = true
      ∨ hasSuffix n ".wav" = true)
    (hm : hasSuffix m ".mp4" = true) : n ≠ m := by
  intro h
  subst h
  rcases hside with h | h | h
  · exact absurd (hasSuffix_unique h hm (by decide)) (by decide)
  · exact absurd (hasSuffix_unique h hm (by decide)) (by decide)
  · exact absurd (hasSuffix_unique h hm (by decide)) (by decide)

/-- C1: for every merge invocation, if merge reports failure every
pre-merge segment still exists, and the audio and subtitle sidecars are
untouched (same lookup result, hence same size) in success and failure
alike; if merge reports success, the reported path is the output name
and every pre-merge segment has been deleted, and — amended — the output
file exists with non-zero size provided the output name was not itself
among the pre-merge segments (a leftover `<folder>_merged.mp4` is
rescanned as a segment and deleted together with the others, defeating
the exists-afterwards guarantee; see the counterexample). -/
theorem C1_merge_postcondition (folder : String) (fs : FS) (enc : EncoderBehavior) :
    ((merge_videos_with_srt folder fs enc).2 = none →
      ∀ v ∈ (scanFolder (fsNames fs)).videos,
        fsExists (merge_videos_with_srt folder fs enc).1 v = true) ∧
    (∀ o, (merge_videos_with_srt folder fs enc).2 = some o →
      o = mergeOutName folder ∧
      (∀ v ∈ (scanFolder (fsNames fs)).videos,
        fsExists (merge_videos_with_srt folder fs enc).1 v = false) ∧
      (mergeOutName folder ∉ (scanFolder (fsNames fs)).videos →
        ∃ sz, fsLookup (merge_videos_with_srt folder fs enc).1 (mergeOutName folder)
          = some sz ∧ 0 < sz)) ∧
    (∀ n, (hasSuffix n ".srt" = true ∨ hasSuffix n ".mp3" = true
        ∨ hasSuffix n ".wav" = true) →
      fsLookup (merge_videos_with_srt folder fs enc).1 n = fsLookup fs n) := by
  have hinv := scanFolder_inv (fsNames fs)
  rcases merge_cases folder fs enc with ⟨heq, _⟩ | ⟨fs1, hfs1, hout⟩
  · refine ⟨?_, ?_, ?_⟩
    · intro _ v hv
      rw [heq]
      exact fsExists_iff.mpr (hinv.2.1 v hv).1
    · intro o ho
      rw [heq] at ho
      cases ho
    · intro n _
      rw [heq]
  · have fact1 : ∀ m, m ∈ fsNames fs → m ∈ fsNames fs1 := by
      rcases hfs1 with rfl | ⟨s, _, rfl⟩
      · exact fun m h => h
      · exact fun m h => mem_fsNames_fsWrite_of_mem h
    have fact2 : ∀ n, n ≠ mergeOutName folder → fsLookup fs1 n = fsLookup fs n := by
      rcases hfs1 with rfl | ⟨s, _, rfl⟩
      · exact fun n _ => rfl
      · exact fun n h => fsLookup_fsWrite_ne s h
    rcases hout with heq | ⟨sz, hl, hsz, heq⟩
    · refine ⟨?_, ?_, ?_⟩
      · intro _ v hv
        rw [heq]
        exact fsExists_iff.mpr (fact1 v (hinv.2.1 v hv).1)
      · intro o ho
        rw [heq] at ho
        cases ho
      · intro n hside
        rw [heq]
        exact fact2 n (sidecar_ne hside (mergeOutName_suffix_mp4 folder))
    · refine ⟨?_, ?_, ?_⟩
      · intro hno
        rw [heq] at hno
        cases hno
      · intro o ho
        rw [heq] at ho
        refine ⟨(Option.some.injEq _ _ ▸ ho : _ = o).symm, ?_, ?_⟩
        · intro v hv
          rw [heq]
          exact fsExists_eq_false_iff.mpr (not_mem_fsNames_foldl_fsRemove hv)
        · intro hnotin
          rw [heq]
          exact ⟨sz, by rw [fsLookup_foldl_fsRemove hnotin]; exact hl, hsz⟩
      · intro n hside
        rw [heq]
        have hnv : n ∉ (scanFolder (fsNames fs)).videos := fun hc =>
          sidecar_ne hside (hinv.2.1 n hc).2.1 rfl
        rw [fsLookup_foldl_fsRemove hnv]
        exact fact2 n (sidecar_ne hside (mergeOutName_suffix_mp4 folder))

/-- Job folder of the C1 counterexample: a leftover merged output from a
previous run is the only `.mp4` file. -/
def C1fs : FS := [("job_merged.mp4", 5), ("s.srt", 1), ("a.mp3", 1)]

/-- C1 counterexample: rerunning merge on a folder that already contains
`job_merged.mp4` reports success, yet the returned output path no longer
exists — the freshly written output was deleted together with the
pre-merge segments, contradicting the claimed success postcondition. -/
theorem C1_stale_output_counterexample :
    (merge_videos_with_srt "job" C1fs ⟨true, some 7⟩).2 = some "job_merged.mp4" ∧
    fsExists (merge_videos_with_srt "job" C1fs ⟨true, some 7⟩).1 "job_merged.mp4"
      = false := by decide

/-- Job folder of the C1 witness: one staged segment plus sidecars. -/
def C1fsW : FS := [("1_a.mp4", 2), ("s.srt", 3), ("a.mp3", 4)]

/-- C1 witness: the success case of the postcondition at a concrete
folder. -/
theorem C1_merge_postcondition_witness :
    "job_merged.mp4" = mergeOutName "job" ∧
    (∀ v ∈ (scanFolder (fsNames C1fsW)).videos,
      fsExists (merge_videos_with_srt "job" C1fsW ⟨true, some 7⟩).1 v = false) ∧
    (mergeOutName "job" ∉ (scanFolder (fsNames C1fsW)).videos →
      ∃ sz, fsLookup (merge_videos_with_srt "job" C1fsW ⟨true, some 7⟩).1
        (mergeOutName "job") = some sz ∧ 0 < sz) :=
  (C1_merge_postcondition "job" C1fsW ⟨true, some 7⟩).2.1 "job_merged.mp4" (by decide)

/-- C4 counterexample: a folder holding two subtitle files and two audio
files.  The claim says merge must fail up front; instead the scan keeps
the last file of each kind, the merge proceeds, reports success and
mutates the folder. -/
def C4fs : FS := [("a.srt", 1), ("b.srt", 1), ("v.mp4", 1), ("x.mp3", 1), ("y.mp3", 1)]

/-- C4 counterexample: with more than one subtitle and more than one
audio file present, the merge does not fail up front — it returns an
output path and mutates the folder. -/
theorem C4_duplicate_counterexample :
    (merge_videos_with_srt "job" C4fs ⟨true, some 3⟩).2 = some "job_merged.mp4" ∧
    (merge_videos_with_srt "job" C4fs ⟨true, some 3⟩).1 ≠ C4fs := by decide

/-- C4, amended: the up-front check only tests presence, not uniqueness:
when the scan finds no subtitle, no video or no audio file, the merge
fails immediately and performs no mutation; when several subtitle or
audio files are present, the last one in listing order is used and no
failure occurs (see the counterexample). -/
theorem C4_preconditions (folder : String) (fs : FS) (enc : EncoderBehavior)
    (h : (scanFolder (fsNames fs)).srt = none ∨ (scanFolder (fsNames fs)).videos = []
      ∨ (scanFolder (fsNames fs)).audio = none) :
    merge_videos_with_srt folder fs enc = (fs, none) :=
  merge_of_scan_missing folder fs enc h

/-- C4 witness: a folder with a video but no subtitle and no audio is
rejected up front with no mutation. -/
theorem C4_preconditions_witness :
    merge_videos_with_srt "job" [("v.mp4", 1)] ⟨true, some 3⟩ = ([("v.mp4", 1)], none) :=
  C4_preconditions "job" [("v.mp4", 1)] ⟨true, some 3⟩ (Or.inl (by decide))

/-- Script of the C2 counterexample: ten lines. -/
def C2terms : List String := ["a", "a", "a", "a", "a", "a", "a", "a", "a", "a"]

/-- C2 counterexample: with ten script lines the staged file names in
line order are not lexicographically sorted — `"10_a.mp4"` sorts before
`"2_a.mp4"` ... `"9_a.mp4"` — so sorting the staged names
lexicographically does not reconstruct the script line order. -/
theorem C2_order_counterexample :
    ¬ (List.Sorted (· < ·) (stagedNamesFrom 1 C2terms) ∧
      (scanFolder (stagedNamesFrom 1 C2terms)).videos = stagedNamesFrom 1 C2terms) := by
  intro h
  have h1 : segName 9 "a" < segName 10 "a" :=
    (List.pairwise_iff_get.mp h.1) ⟨8, by decide⟩ ⟨9, by decide⟩ (by decide)
  have h2 : segName 10 "a" < segName 9 "a" := by
    rw [String.lt_iff_toList_lt]
    exact List.Lex.rel (by decide)
  exact absurd h1 (lt_asymm h2)

/-- C2, amended: for jobs of at most 9 script lines (single-digit
ordinals) the staged names in line order are lexicographically sorted —
so lexicographic sorting is the identity and reconstructs script order —
and the merge scan keeps the segments in listing order, so a listing
that enumerates the staged names in sorted order is concatenated in
script order.  With 10 or more lines the embedded ordinals sort
lexicographically, not numerically, and the property fails (see the
counterexample); moreover the merge itself never sorts: it follows raw
listing order. -/
theorem C2_order_invariant (terms : List String) (h : terms.length ≤ 9) :
    List.Sorted (· < ·) (stagedNamesFrom 1 terms) ∧
    (scanFolder (stagedNamesFrom 1 terms)).videos = stagedNamesFrom 1 terms := by
  constructor
  · exact stagedNamesFrom_sorted terms 1 (le_refl 1) (by omega)
  · rw [scanFolder_all_mp4 (fun n hn => ?_)]
    obtain ⟨j, u, _, _, rfl⟩ := mem_stagedNamesFrom hn
    exact ⟨segName_not_suffix_srt j u, segName_suffix_mp4 j u⟩

/-- C2 witness: a two-line script. -/
theorem C2_order_invariant_witness :
    List.Sorted (· < ·) (stagedNamesFrom 1 ["b a", "c"]) ∧
    (scanFolder (stagedNamesFrom 1 ["b a", "c"])).videos = stagedNamesFrom 1 ["b a", "c"] :=
  C2_order_invariant ["b a", "c"] (by decide)

/-- Retrieval oracle of the C3 theorems: two candidates for every term. -/
def C3search : String → List Candidate := fun _ => [⟨"p", "", "", 0⟩, ⟨"q", "", "", 0⟩]

/-- C3 counterexample: one term, `topN = 2`, two candidates with existing
sources.  The claim predicts `min 2 2 = 2` staged files; the code stages
only one, because both copies of the term share the destination name
`1_a.mp4` and the second copy overwrites the first. -/
theorem C3_count_counterexample :
    ¬ ((selectAll C3search (fun _ => true) 2 ["a"]).videoFiles.length
      = (["a"].map (fun t => min 2 (C3search t).length)).sum) := by decide

/-- C3, amended: for every job run with `topN = k ≥ 1` over any number
of search terms, each yielding at least `k` candidates whose sources all
exist, the number of staged segment files before merge equals the number
of terms — one file per term, since all `k` copies of a term share one
destination name and later copies overwrite earlier ones — rather than
the claimed sum over terms of `min(k, candidates returned)`, which that
count only equals when `k = 1`. -/
theorem C3_staged_count (search : String → List Candidate) (ex : String → Bool)
    (k : Nat) (terms : List String) (hk : 1 ≤ k)
    (hres : ∀ t ∈ terms, k ≤ (search t).length)
    (hex : ∀ t ∈ terms, ∀ c ∈ search t, ex c.path = true) :
    (selectAll search ex k terms).videoFiles.length = terms.length := by
  unfold selectAll
  rw [processTermsFrom_videoFiles search ex k hk terms 1 ⟨[], [], []⟩
    hres hex (fun n hn => absurd hn (List.not_mem_nil n))]
  simp [stagedNamesFrom_length]

/-- C3 witness: the amended count at the counterexample's own input —
one term with two existing candidates and `topN = 2` stages exactly one
file. -/
theorem C3_staged_count_witness :
    (selectAll C3search (fun _ => true) 2 ["a"]).videoFiles.length = ["a"].length :=
  C3_staged_count C3search (fun _ => true) 2 ["a"] (by decide) (by decide) (by decide)

/-! ### Filter graph, trim duration, metadata lifecycle, failure locality -/

theorem foldl_append_singleton {α β : Type} (f : α → β) :
    ∀ (l : List α) (b : List β), l.foldl (fun acc x => acc ++ [f x]) b = b ++ l.map f
  | [], b => by simp
  | a :: l, b => by
    rw [List.foldl_cons, foldl_append_singleton f l (b ++ [f a])]
    simp

theorem foldl_append_blocks {α β : Type} (f : α → List β) :
    ∀ (l : List α) (b : List β), l.foldl (fun acc x => acc ++ f x) b = b ++ (l.map f).join
  | [], b => by simp
  | a :: l, b => by
    rw [List.foldl_cons, foldl_append_blocks f l (b ++ f a)]
    simp

/-- Filter-graph shape as §4.3 of the spec describes it, used as the
refinement target for C5: one timestamp-reset node per input `0..N-1`,
one video-concat node joining the reset streams in input order into a
single video stream, then one audio-concat node appending the audio
input (stream index `N`), yielding one video and one audio output.
Defined uniformly in `n`, so `n = 1` is not a special case. -/
def specFilterGraph (n : Nat) : List String :=
  (List.range n).map setptsEntry ++ [videoConcatEntry n, audioConcatEntry n]

/-- C5: for every merge over `N` video segments the constructed
filter-graph list equals the spec's shape — each input's timestamps
reset to zero, all `N` video streams concatenated in input order, then
the audio appended in a second concat stage producing one video and one
audio output — and the single-segment case is the same formula
instantiated at `N = 1`, not a special case. -/
theorem C5_filter_graph_shape (videos : List String) :
    mergeFilterComplex videos = specFilterGraph videos.length := by
  unfold mergeFilterComplex specFilterGraph
  rw [foldl_append_singleton (fun p : Nat × String => setptsEntry p.1) videos.enum []]
  simp only [List.nil_append]
  congr 1
  rw [show (fun p : Nat × String => setptsEntry p.1)
      = (fun i => setptsEntry i) ∘ Prod.fst from rfl, ← List.map_map,
    show videos.enum = List.enumFrom 0 videos from rfl, List.enumFrom_map_fst,
    ← List.range_eq_range']

/-- C6: for every merge invocation whose audio probe reports duration
`D`, the constructed encoder command carries the duration-trim argument
`-t` followed by exactly `D + 0.3` seconds (float arithmetic modelled
over ℚ). -/
theorem C6_trim_duration (videos : List String) (audio folder : String) (D : ℚ) :
    trimDuration D = D + 3/10 ∧
    ["-t", toString (trimDuration D)] <:+: ffmpegCommand videos audio folder D := by
  refine ⟨rfl, ⟨["ffmpeg", "-y"] ++ (videos.map (fun v => ["-i", v])).join ++ ["-i", audio]
      ++ ["-filter_complex", String.intercalate ";" (mergeFilterComplex videos)]
      ++ ["-map", "[outv]", "-map", "[outa]"], [mergeOutName folder], ?_⟩⟩
  unfold ffmpegCommand
  rw [foldl_append_blocks (fun v => ["-i", v]) videos []]
  simp

/-- C7: each staged-metadata record is deleted immediately after the
corresponding copy is attempted, whatever the copy outcome — the record
name is absent from the state every candidate step leaves behind — and
after the selection loop completes (it starts from the freshly created
empty folders) zero metadata files remain; the code then also deletes
the whole temporary metadata folder (`piliang.py:185`). -/
theorem C7_metadata_lifecycle :
    (∀ (ex : String → Bool) (i j : Nat) (term : String) (c : Candidate) (st : JobState),
      metaName i j term ∉ (processCandidate ex i j term c st).metaFiles) ∧
    (∀ (search : String → List Candidate) (ex : String → Bool) (tn : Nat)
      (terms : List String), (selectAll search ex tn terms).metaFiles = []) := by
  constructor
  · intro ex i j term c st
    rw [processCandidate_metaFiles]
    exact not_mem_removeName _ _
  · intro search ex tn terms
    exact processTermsFrom_metaFiles_nil search ex tn terms 1 _ rfl

theorem foldl_txt_count (g : String → Nat) :
    ∀ (l : List String) (a : Nat),
      l.foldl (fun acc f => if hasSuffix f ".txt" then acc + g f else acc) a
        = a + ((l.filter (fun f => hasSuffix f ".txt")).map g).sum
  | [], a => by simp
  | f :: l, a => by
    rw [List.foldl_cons, List.filter_cons]
    by_cases h : hasSuffix f ".txt" = true
    · rw [if_pos h, if_pos h, foldl_txt_count g l (a + g f), List.map_cons, List.sum_cons]
      omega
    · rw [if_neg h, if_neg h, foldl_txt_count g l a]

/-- C8: failures are local to their unit.  (a) A term with zero
retrieval results leaves the state untouched and the loop proceeds to
the remaining terms (which keep their original ordinals).  (b) A
candidate whose source path is missing leaves the job state unchanged
and the remaining candidates of the same term are still processed.
(c) The batch count over a directory is the sum of the per-file staged
counts for every `.txt` entry, and each file's contribution is its
selection result alone — the merge outcome (`env.enc`) does not enter
it, so a failed merge for one file never suppresses later files.
(d) An invalid top-level input path produces no processing and count
zero. -/
theorem C8_failure_locality :
    (∀ (search : String → List Candidate) (ex : String → Bool) (tn i : Nat)
      (t : String) (ts : List String) (st : JobState), search t = [] →
      processTermsFrom search ex tn i (t :: ts) st
        = processTermsFrom search ex tn (i + 1) ts st) ∧
    (∀ (ex : String → Bool) (i : Nat) (term : String) (j : Nat) (c : Candidate)
      (cs : List Candidate) (st : JobState), ex c.path = false →
      metaName i j term ∉ st.metaFiles →
      processCandidates ex i term j (c :: cs) st
        = processCandidates ex i term (j + 1) cs st) ∧
    (∀ (env : Env) (tn : Nat) (l : List String),
      process_input env tn (.dir l)
        = ((l.filter (fun f => hasSuffix f ".txt")).map
            (fun f => (process_single_file env tn f).1.length)).sum) ∧
    (∀ (env : Env) (tn : Nat) (file : String),
      (process_single_file env tn file).1
        = (selectAll env.search env.sourceOk tn (env.scriptOf file)).copied) ∧
    (∀ (env : Env) (tn : Nat), process_input env tn .invalid = 0) := by
  refine ⟨?_, ?_, ?_, ?_, ?_⟩
  · intro search ex tn i t ts st h
    simp [processTermsFrom, h]
  · intro ex i term j c cs st hex hm
    show processCandidates ex i term (j + 1) cs (processCandidate ex i j term c st)
      = processCandidates ex i term (j + 1) cs st
    rw [processCandidate_of_skip i j term hex hm]
  · intro env tn l
    show l.foldl (fun acc f => if hasSuffix f ".txt"
        then acc + (process_single_file env tn f).1.length else acc) 0
      = ((l.filter (fun f => hasSuffix f ".txt")).map
          (fun f => (process_single_file env tn f).1.length)).sum
    rw [foldl_txt_count (fun f => (process_single_file env tn f).1.length) l 0]
    omega
  · intro env tn file
    rfl
  · intro env tn
    rfl

/-- C8 witness: one skipped term at a concrete input — the zero-result
term is dropped and the state handed to the remaining (empty) term list
unchanged. -/
theorem C8_failure_locality_witness :
    processTermsFrom (fun _ => []) (fun _ => true) 1 1 ["a"] ⟨[], [], []⟩
      = processTermsFrom (fun _ => []) (fun _ => true) 1 2 [] ⟨[], [], []⟩ :=
  C8_failure_locality.1 (fun _ => []) (fun _ => true) 1 1 "a" [] ⟨[], [], []⟩ rfl

/-- C10: for every run, (a) when a candidate's source exists the copy
destination is `segName i term`, which names only the term ordinal, not
the candidate rank `j` — so every candidate of one term targets the same
file and later copies overwrite earlier ones; (b) consequently the
staged folder never holds more than one file of any given name (at most
one staged segment per term); (c) while the returned copied-video list
still counts every copy performed (per term: all existing sources among
the first `top_n` candidates). -/
theorem C10_overwrite_semantics :
    (∀ (ex : String → Bool) (i j : Nat) (term : String) (c : Candidate) (st : JobState),
      ex c.path = true →
      (processCandidate ex i j term c st).videoFiles
        = writeName st.videoFiles (segName i term)) ∧
    (∀ (search : String → List Candidate) (ex : String → Bool) (tn : Nat)
      (terms : List String) (n : String),
      (selectAll search ex tn terms).videoFiles.count n ≤ 1) ∧
    (∀ (search : String → List Candidate) (ex : String → Bool) (tn : Nat)
      (terms : List String),
      (selectAll search ex tn terms).copied.length = copiedCountSpec search ex tn terms) := by
  refine ⟨?_, ?_, ?_⟩
  · intro ex i j term c st h
    exact processCandidate_videoFiles_of_ex i j term st h
  · intro search ex tn terms n
    have hnd : (selectAll search ex tn terms).videoFiles.Nodup :=
      processTermsFrom_videoFiles_nodup search ex tn terms 1 ⟨[], [], []⟩ List.nodup_nil
    exact List.nodup_iff_count_le_one.mp hnd n
  · intro search ex tn terms
    have h := processTermsFrom_copied_length search ex tn terms 1 ⟨[], [], []⟩
    simpa [selectAll] using h

/-- C10 witness: a candidate of rank 2 for term 1 still lands on the
rank-free destination name `1_a.mp4`. -/
theorem C10_overwrite_semantics_witness :
    (processCandidate (fun _ => true) 1 2 "a" ⟨"p", "", "", 0⟩ ⟨[], [], []⟩).videoFiles
      = writeName ([] : List String) (segName 1 "a") :=
  C10_overwrite_semantics.1 (fun _ => true) 1 2 "a" ⟨"p", "", "", 0⟩ ⟨[], [], []⟩ rfl

theorem segs_mp4_facts {segs : List String} (hsegs : ∀ s ∈ segs, ∃ x, s = x ++ ".mp4") :
    ∀ s ∈ segs, hasSuffix s ".srt" = false ∧ hasSuffix s ".mp4" = true := by
  intro s hs
  obtain ⟨x, rfl⟩ := hsegs s hs
  exact ⟨hasSuffix_append_eq_false x (by decide) (by decide), hasSuffix_append_self x ".mp4"⟩

/-- A job folder whose listing is some `.mp4` segments, one companion
file matching none of the scanned suffixes, and one subtitle file is
scanned with no audio, so the merge fails its audio-present precondition
and performs no mutation. -/
theorem merge_missing_audio_of_unscanned (folder : String) (segs : List String)
    (a srt : String) (sz : String → Nat) (enc : EncoderBehavior)
    (ha1 : hasSuffix a ".srt" = false) (ha2 : hasSuffix a ".mp4" = false)
    (ha3 : hasSuffix a ".mp3" = false) (ha4 : hasSuffix a ".wav" = false)
    (hsrt : hasSuffix srt ".srt" = true)
    (hsegs : ∀ s ∈ segs, hasSuffix s ".srt" = false ∧ hasSuffix s ".mp4" = true) :
    merge_videos_with_srt folder (fsOfNames (segs ++ [a, srt]) sz) enc
      = (fsOfNames (segs ++ [a, srt]) sz, none) := by
  apply merge_of_scan_missing
  refine Or.inr (Or.inr ?_)
  rw [fsNames_fsOfNames,
    show scanFolder (segs ++ [a, srt])
      = (segs ++ [a, srt]).foldl scanStep ⟨none, [], none⟩ from rfl,
    List.foldl_append, foldl_scanStep_all_mp4 _ hsegs]
  simp only [List.foldl_cons, List.foldl_nil]
  rw [scanStep_skip _ a ha1 ha2 ha3 ha4, scanStep_srt _ srt hsrt]

/-- C9: case-sensitivity mismatch between the companion copier and the
merge scan, in both uppercase variants.  The copier tries
`.mp3, .MP3, .wav, .WAV` in order, so a job whose only audio companion
carries the uppercase `.MP3` extension (first conjunct) or the uppercase
`.WAV` extension (second conjunct) gets that file copied into the job
folder together with the subtitle; but the merge scan matches only the
lowercase suffixes `.mp3`/`.wav`, classifies the uppercase file as
nothing at all, finds no audio, and fails its audio-present precondition
with no mutation. -/
theorem C9_uppercase_audio_mismatch :
    (∀ (base : String) (segs : List String) (ok : String → Bool) (sz : String → Nat)
      (folder : String) (enc : EncoderBehavior),
      ok (base ++ ".mp3") = false → ok (base ++ ".MP3") = true →
      ok (base ++ ".srt") = true → (∀ s ∈ segs, ∃ x, s = x ++ ".mp4") →
      copy_audio_and_srt_files ok base = [base ++ ".MP3", base ++ ".srt"] ∧
      merge_videos_with_srt folder
          (fsOfNames (segs ++ [base ++ ".MP3", base ++ ".srt"]) sz) enc
        = (fsOfNames (segs ++ [base ++ ".MP3", base ++ ".srt"]) sz, none)) ∧
    (∀ (base : String) (segs : List String) (ok : String → Bool) (sz : String → Nat)
      (folder : String) (enc : EncoderBehavior),
      ok (base ++ ".mp3") = false → ok (base ++ ".MP3") = false →
      ok (base ++ ".wav") = false → ok (base ++ ".WAV") = true →
      ok (base ++ ".srt") = true → (∀ s ∈ segs, ∃ x, s = x ++ ".mp4") →
      copy_audio_and_srt_files ok base = [base ++ ".WAV", base ++ ".srt"] ∧
      merge_videos_with_srt folder
          (fsOfNames (segs ++ [base ++ ".WAV", base ++ ".srt"]) sz) enc
        = (fsOfNames (segs ++ [base ++ ".WAV", base ++ ".srt"]) sz, none)) := by
  constructor
  · intro base segs ok sz folder enc h1 h2 h3 hsegs
    constructor
    · unfold copy_audio_and_srt_files
      rw [show audio_exts.map (fun e => base ++ e)
          = [base ++ ".mp3", base ++ ".MP3", base ++ ".wav", base ++ ".WAV"] from rfl,
        List.find?_cons_of_neg _ (by rw [h1]; exact Bool.false_ne_true),
        List.find?_cons_of_pos _ h2, if_pos h3]
      rfl
    · exact merge_missing_audio_of_unscanned folder segs _ _ sz enc
        (hasSuffix_append_eq_false base (by decide) (by decide))
        (hasSuffix_append_eq_false base (by decide) (by decide))
        (hasSuffix_append_eq_false base (by decide) (by decide))
        (hasSuffix_append_eq_false base (by decide) (by decide))
        (hasSuffix_append_self base ".srt") (segs_mp4_facts hsegs)
  · intro base segs ok sz folder enc h1 h2 h3 h4 h5 hsegs
    constructor
    · unfold copy_audio_and_srt_files
      rw [show audio_exts.map (fun e => base ++ e)
          = [base ++ ".mp3", base ++ ".MP3", base ++ ".wav", base ++ ".WAV"] from rfl,
        List.find?_cons_of_neg _ (by rw [h1]; exact Bool.false_ne_true),
        List.find?_cons_of_neg _ (by rw [h2]; exact Bool.false_ne_true),
        List.find?_cons_of_neg _ (by rw [h3]; exact Bool.false_ne_true),
        List.find?_cons_of_pos _ h4, if_pos h5]
      rfl
    · exact merge_missing_audio_of_unscanned folder segs _ _ sz enc
        (hasSuffix_append_eq_false base (by decide) (by decide))
        (hasSuffix_append_eq_false base (by decide) (by decide))
        (hasSuffix_append_eq_false base (by decide) (by decide))
        (hasSuffix_append_eq_false base (by decide) (by decide))
        (hasSuffix_append_self base ".srt") (segs_mp4_facts hsegs)

/-- C9 witness: both halves of the mismatch at concrete jobs — `b.MP3`
(respectively `c.WAV`) is the only audio companion, it is copied, and
the merge of the resulting folder fails with no mutation. -/
theorem C9_uppercase_audio_mismatch_witness :
    (copy_audio_and_srt_files (fun s => s == "b.MP3" || s == "b.srt") "b"
        = ["b" ++ ".MP3", "b" ++ ".srt"] ∧
      merge_videos_with_srt "job"
          (fsOfNames (["1_a.mp4"] ++ ["b" ++ ".MP3", "b" ++ ".srt"]) (fun _ => 1))
          ⟨true, some 1⟩
        = (fsOfNames (["1_a.mp4"] ++ ["b" ++ ".MP3", "b" ++ ".srt"]) (fun _ => 1), none)) ∧
    (copy_audio_and_srt_files (fun s => s == "c.WAV" || s == "c.srt") "c"
        = ["c" ++ ".WAV", "c" ++ ".srt"] ∧
      merge_videos_with_srt "job"
          (fsOfNames (["1_a.mp4"] ++ ["c" ++ ".WAV", "c" ++ ".srt"]) (fun _ => 1))
          ⟨true, some 1⟩
        = (fsOfNames (["1_a.mp4"] ++ ["c" ++ ".WAV", "c" ++ ".srt"]) (fun _ => 1), none)) :=
  ⟨C9_uppercase_audio_mismatch.1 "b" ["1_a.mp4"] (fun s => s == "b.MP3" || s == "b.srt")
      (fun _ => 1) "job" ⟨true, some 1⟩ (by decide) (by decide) (by decide)
      (by
        intro s hs
        rw [List.mem_singleton.mp hs]
        exact ⟨"1_a", by decide⟩),
    C9_uppercase_audio_mismatch.2 "c" ["1_a.mp4"] (fun s => s == "c.WAV" || s == "c.srt")
      (fun _ => 1) "job" ⟨true, some 1⟩ (by decide) (by decide) (by decide) (by decide)
      (by decide)
      (by
        intro s hs
        rw [List.mem_singleton.mp hs]
        exact ⟨"1_a", by decide⟩)⟩

end Piliang
